import Mathlib

/-!
# Verification of the stockticker fetch-cache-transform core

Shallow embedding of the Go sources of `saedabdu/stockticker`:

* `internal/cache/cache.go` — the expiring in-memory cache.  Go's
  `map[string]Item` is modelled as a function `String → Option (Item α)`;
  `time.Time` values are modelled by their `UnixNano` reading as `Int`
  (nanoseconds), and every operation takes the current instant `now`
  explicitly instead of calling `time.Now()`.
* `internal/service/stock.go` — the stock service (`GetStockData`,
  `processAPIResponse`).  Go's `float64` close prices are modelled as exact
  rationals `ℚ`; `interface{}` values stored in the cache are modelled by the
  sum type `Dyn`; a Go runtime panic (failed type assertion, slice bounds out
  of range) is modelled by the `GoResult.panicked` constructor.
* `pkg/models/` — the data model structures, ported field for field.

Locks (`sync.RWMutex`) guard the Go cache against data races; in this
sequential embedding every operation is atomic, so the locks have no
counterpart.
-/

namespace Stockticker

/-- `cache.Item`: a cached value together with its absolute expiration
instant (`UnixNano` nanoseconds). -/
structure Item (α : Type) where
  value : α
  expiration : Int
  deriving Repr, DecidableEq

/-- The cache's storage: Go's `map[string]Item` as a partial function. -/
def CacheMap (α : Type) : Type := String → Option (Item α)

/-- `cache.New()`: a cache with no entries. -/
def cacheNew (α : Type) : CacheMap α := fun _ => none

/-- `Cache.Set`: unconditionally insert or overwrite the entry for `key`,
with `expiration = time.Now().Add(duration).UnixNano()`, i.e. `now + duration`
in nanoseconds. -/
def cacheSet {α : Type} (c : CacheMap α) (key : String) (value : α)
    (duration : Int) (now : Int) : CacheMap α :=
  fun k => if k = key then some ⟨value, now + duration⟩ else c k

/-- `Cache.Get`: return `(nil, false)` when the key is missing, and
`(nil, false)` when `time.Now().UnixNano() > item.Expiration`; otherwise
return `(item.Value, true)`. -/
def cacheGet {α : Type} (c : CacheMap α) (now : Int) (key : String) :
    Option α × Bool :=
  match c key with
  | none => (none, false)
  | some item => if now > item.expiration then (none, false) else (some item.value, true)

/-- `Cache.Delete`: remove the entry for `key` if present. -/
def cacheDelete {α : Type} (c : CacheMap α) (key : String) : CacheMap α :=
  fun k => if k = key then none else c k

/-- `Cache.Cleanup`: delete every entry with `now > v.Expiration`, with
`now` read once at the start of the sweep. -/
def cacheCleanup {α : Type} (c : CacheMap α) (now : Int) : CacheMap α :=
  fun k =>
    match c k with
    | none => none
    | some item => if now > item.expiration then none else some item

/-! ## Data model (`pkg/models`) -/

/-- `models.MetaData`. -/
structure MetaData where
  Information : String
  Symbol : String
  LastRefreshed : String
  OutputSize : String
  TimeZone : String
  deriving Repr, DecidableEq

/-- `models.DailyPrice`: all five fields are decimal strings in the upstream
payload. -/
structure DailyPrice where
  Open : String
  High : String
  Low : String
  Close : String
  Volume : String
  deriving Repr, DecidableEq

/-- `models.AlphaVantageResponse`.  Go's `map[string]DailyPrice` is modelled
as an association list with (for a genuine map) pairwise-distinct keys; the
service sorts the keys, so the list order itself is never observable. -/
structure AlphaVantageResponse where
  MetaData : MetaData
  TimeSeries : List (String × DailyPrice)
  deriving Repr, DecidableEq

/-- `models.StockPrice`.  The Go `float64` close price is modelled as an
exact rational. -/
structure StockPrice where
  Date : String
  Close : ℚ
  deriving Repr, DecidableEq

/-- `models.StockData`. -/
structure StockData where
  Symbol : String
  Prices : List StockPrice
  Average : ℚ
  deriving Repr, DecidableEq

/-- `config.Config`.  `NDays` is a Go `int`, hence `Int` (it can be negative
when `N_DAYS` parses to a negative number). -/
structure Config where
  Port : String
  APIKey : String
  Symbol : String
  NDays : Int
  deriving Repr, DecidableEq

/-! ## String comparison

Go's `sort.StringSlice` compares strings with `<`, which in Go is byte-wise
lexicographic comparison of the UTF-8 encodings.  Since UTF-8 byte order
agrees with code-point order, this is lexicographic comparison of the
character sequences, embedded here as a Boolean function on `List Char`
(structural, so the kernel can evaluate it on literals). -/

/-- Lexicographic strict comparison of character lists by code point:
the Go `<` on the strings they spell. -/
def ltbChars : List Char → List Char → Bool
  | [], [] => false
  | [], _ :: _ => true
  | _ :: _, [] => false
  | a :: as, b :: bs =>
    if a < b then true
    else if b < a then false
    else ltbChars as bs

/-- Go's `s < t` on strings. -/
def strLtB (s t : String) : Bool := ltbChars s.toList t.toList

/-- One step of insertion sort into a descending-sorted list: place `d`
before the first element it strictly exceeds. -/
def insertDesc (d : String) : List String → List String
  | [] => [d]
  | x :: xs => if strLtB x d then d :: x :: xs else x :: insertDesc d xs

/-- `sort.Sort(sort.Reverse(sort.StringSlice(dates)))`: sort the date keys in
descending lexicographic order.  (Go's sort is unstable, but the keys of a
map are distinct, so the descending ordering is unique and insertion sort
computes the same list.) -/
def sortDesc : List String → List String
  | [] => []
  | d :: ds => insertDesc d (sortDesc ds)

/-! ## Close-price parsing (`strconv.ParseFloat`) -/

/-- Numeric value of a decimal digit character. -/
def digitVal (c : Char) : Nat := c.toNat - 48

/-- All characters are decimal digits. -/
def allDigits (cs : List Char) : Bool := cs.all (fun c => c.isDigit)

/-- The natural number spelled by a digit string (most significant first). -/
def natOfDigits (cs : List Char) : Nat := cs.foldl (fun acc c => acc * 10 + digitVal c) 0

/-- The shape of a plain decimal literal: sign, integer-part value,
fractional-part value and fractional digit count; `none` when the string is
not of the form an optional sign, then digits with at most one decimal point
and at least one digit. -/
def parseParts (s : String) : Option (Bool × Nat × Nat × Nat) :=
  let signed : Bool × List Char :=
    match s.toList with
    | '-' :: cs => (true, cs)
    | '+' :: cs => (false, cs)
    | cs => (false, cs)
  let cs := signed.2
  let intPart := cs.takeWhile (fun c => c ≠ '.')
  let rest := cs.dropWhile (fun c => c ≠ '.')
  let fracPart : Option (List Char) :=
    match rest with
    | [] => some []
    | '.' :: fs => some fs
    | _ => none
  match fracPart with
  | none => none
  | some fs =>
    if allDigits intPart && allDigits fs && !(intPart.isEmpty && fs.isEmpty) then
      some (signed.1, natOfDigits intPart, natOfDigits fs, fs.length)
    else none

/-- `strconv.ParseFloat(s, 64)` restricted to the plain decimal forms the
upstream close-price fields take.  Exponent, hexadecimal, `Inf` and `NaN`
forms (which Go would also accept, but which never denote a close price) are
omitted, and binary `float64` rounding is modelled as the exact decimal value
in `ℚ`.  Returns `none` where Go returns a non-nil error. -/
def parseDecimal (s : String) : Option ℚ :=
  match parseParts s with
  | none => none
  | some (neg, i, f, k) =>
    let mag : ℚ := (i : ℚ) + (f : ℚ) / ((10 : ℚ) ^ k)
    some (if neg then -mag else mag)

/-! ## Stock service (`internal/service/stock.go`) -/

/-- `cacheDuration = 15 * time.Minute`, in nanoseconds. -/
def cacheDuration : Int := 900000000000

/-- Outcome of a Go function that returns `(T, error)` and may also panic:
`ok` is a nil error, `err` a non-nil error with its message, `panicked` a
runtime panic. -/
inductive GoResult (α : Type) where
  | ok (val : α)
  | err (msg : String)
  | panicked (msg : String)
  deriving Repr, DecidableEq

/-- The Go zero value of `models.DailyPrice`, produced by indexing the
`TimeSeries` map at a missing key. -/
def zeroDailyPrice : DailyPrice := ⟨"", "", "", "", ""⟩

/-- The `for _, date := range dates` loop of `processAPIResponse`: look each
retained date up in the time series, parse its close price (failing fast on
the first parse error), and accumulate the `prices` slice (in date order) and
`totalClose`. -/
def processLoop (ts : List (String × DailyPrice)) :
    List String → List StockPrice → ℚ → GoResult (List StockPrice × ℚ)
  | [], prices, totalClose => .ok (prices, totalClose)
  | date :: rest, prices, totalClose =>
    let dailyPrice := (ts.lookup date).getD zeroDailyPrice
    match parseDecimal dailyPrice.Close with
    | none => .err ("error parsing close price for date " ++ date)
    | some closePrice =>
      processLoop ts rest (prices ++ [⟨date, closePrice⟩]) (totalClose + closePrice)

/-- The truncation `if len(dates) > s.config.NDays { dates = dates[:s.config.NDays] }`.
Go's slice expression `dates[:n]` panics at run time when `n` is negative, so
when the guard passes and `NDays < 0` the result is a panic, not a value. -/
def truncateDates (nDays : Int) (dates : List String) : GoResult (List String) :=
  if (dates.length : Int) > nDays then
    if nDays < 0 then .panicked "slice bounds out of range"
    else .ok (dates.take nDays.toNat)
  else .ok dates

/-- `StockService.processAPIResponse`: collect the date keys, sort them
descending, truncate to `NDays`, parse the retained close prices, fail with
the no-price-data error when nothing was retained, otherwise average. -/
def processAPIResponse (cfg : Config) (apiResponse : AlphaVantageResponse) :
    GoResult StockData :=
  let dates := apiResponse.TimeSeries.map Prod.fst
  let sorted := sortDesc dates
  match truncateDates cfg.NDays sorted with
  | .panicked m => .panicked m
  | .err m => .err m
  | .ok retained =>
    match processLoop apiResponse.TimeSeries retained [] 0 with
    | .panicked m => .panicked m
    | .err m => .err m
    | .ok (prices, totalClose) =>
      if prices.length = 0 then
        .err ("no price data available for symbol " ++ cfg.Symbol)
      else
        .ok ⟨cfg.Symbol, prices, totalClose / (prices.length : ℚ)⟩

/-- The dynamic type of values stored in the cache: Go's `interface{}`.
`stock` holds a `*models.StockData`; `other` stands for a value of any other
dynamic type, on which the service's type assertion would fail. -/
inductive Dyn where
  | stock (d : StockData)
  | other (tag : String)
  deriving Repr, DecidableEq

/-- The observable outcome of one `StockService.GetStockData` call: its
return value, the cache state after the call, and how many times the
AlphaVantage client was invoked during the call. -/
structure GetOutcome where
  result : GoResult StockData
  cache : CacheMap Dyn
  fetchCount : Nat

/-- `StockService.GetStockData`.  The AlphaVantage client call
`s.client.GetStockData(symbol, nDays)` is modelled by the `fetch` argument:
the payload or error the single possible upstream call would produce at this
instant.  A cache hit whose stored value is not a `*models.StockData` makes
the type assertion `cachedData.(*models.StockData)` panic. -/
def getStockData (cfg : Config) (fetch : Except String AlphaVantageResponse)
    (c : CacheMap Dyn) (now : Int) : GetOutcome :=
  let cacheKey := cfg.Symbol
  match cacheGet c now cacheKey with
  | (cachedData, true) =>
    match cachedData with
    | some (Dyn.stock d) => ⟨.ok d, c, 0⟩
    | _ => ⟨.panicked "interface conversion", c, 0⟩
  | (_, false) =>
    match fetch with
    | .error e => ⟨.err e, c, 1⟩
    | .ok apiResponse =>
      match processAPIResponse cfg apiResponse with
      | .err m => ⟨.err m, c, 1⟩
      | .panicked m => ⟨.panicked m, c, 1⟩
      | .ok stockData =>
        ⟨.ok stockData, cacheSet c cacheKey (Dyn.stock stockData) cacheDuration now, 1⟩

/-- Cache states reachable from the empty cache by `GetStockData` calls
alone (`GetStockData` is the only writer to the cache in this system), with
arbitrary configurations, upstream outcomes and call instants. -/
inductive ReachableCache : CacheMap Dyn → Prop where
  | init : ReachableCache (cacheNew Dyn)
  | step (c : CacheMap Dyn) (cfg : Config) (fetch : Except String AlphaVantageResponse)
      (now : Int) : ReachableCache c → ReachableCache (getStockData cfg fetch c now).cache

/-! ## Concrete test fixtures (the payloads of the spec's testable properties
and of `internal/service/stock_test.go`) -/

/-- Empty metadata block (the service never reads it). -/
def md0 : MetaData := ⟨"", "", "", "", ""⟩

/-- Daily price record carrying only a close price. -/
def dp0 (close : String) : DailyPrice := ⟨"", "", "", close, ""⟩

/-- Three valid trading days, listed newest first. -/
def resp3 : AlphaVantageResponse :=
  ⟨md0, [("2023-01-03", dp0 "150.10"), ("2023-01-02", dp0 "145.50"), ("2023-01-01", dp0 "140.20")]⟩

/-- Two valid trading days. -/
def resp2 : AlphaVantageResponse :=
  ⟨md0, [("2023-01-02", dp0 "145.50"), ("2023-01-01", dp0 "140.20")]⟩

/-- One non-numeric close field among otherwise valid dates. -/
def respBad : AlphaVantageResponse :=
  ⟨md0, [("2023-01-03", dp0 "invalid"), ("2023-01-02", dp0 "145.50")]⟩

/-- An upstream payload with zero dates. -/
def respEmpty : AlphaVantageResponse := ⟨md0, []⟩

/-- A configuration for symbol `AAPL` with the given day count. -/
def cfgAAPL (n : Int) : Config := ⟨"8080", "testkey", "AAPL", n⟩

/-- The transform of `resp3` when all three days are retained: the first test
case of `TestProcessAPIResponse` (average `(150.10 + 145.50 + 140.20) / 3`). -/
def sd3 : StockData :=
  ⟨"AAPL", [⟨"2023-01-03", 1501/10⟩, ⟨"2023-01-02", 291/2⟩, ⟨"2023-01-01", 701/5⟩], 2179/15⟩

/-! ## Helper lemmas: string comparison and descending insertion sort -/

/-- The Boolean comparison agrees with the lexicographic strict order on
`List Char` (Mathlib's linear order on lists). -/
theorem ltbChars_eq_true_iff : ∀ {a b : List Char}, ltbChars a b = true ↔ a < b
  | [], [] => by simp [ltbChars, lt_irrefl]
  | [], c :: cs => by simp [ltbChars, List.nil_lt_cons]
  | c :: cs, [] => by
    simp only [ltbChars, Bool.false_eq_true, false_iff]
    exact List.Lex.not_nil_right _ _
  | a :: as, b :: bs => by
    simp only [ltbChars]
    rcases lt_trichotomy a b with hab | hab | hab
    · simp only [if_pos hab, true_iff]
      exact List.Lex.rel hab
    · subst hab
      rw [if_neg (lt_irrefl a), if_neg (lt_irrefl a)]
      rw [ltbChars_eq_true_iff]
      show _ ↔ List.Lex _ _ _
      rw [List.Lex.cons_iff]
      exact Iff.rfl
    · rw [if_neg (asymm hab), if_pos hab]
      simp only [Bool.false_eq_true, false_iff]
      intro h
      cases h with
      | cons h => exact lt_irrefl a hab
      | rel h => exact asymm hab h

/-- `strLtB` in terms of the character-list order. -/
theorem strLtB_iff {s t : String} : strLtB s t = true ↔ s.toList < t.toList := by
  rw [strLtB, ltbChars_eq_true_iff]

/-- Negated form of `strLtB_iff`. -/
theorem strLtB_eq_false_iff {s t : String} : strLtB s t = false ↔ ¬ s.toList < t.toList := by
  rw [← strLtB_iff, Bool.not_eq_true, Bool.eq_false_iff, ne_eq, Bool.not_eq_true]

/-- Membership in an insertion step. -/
theorem mem_insertDesc {d y : String} : ∀ {l : List String}, y ∈ insertDesc d l ↔ y = d ∨ y ∈ l
  | [] => by simp [insertDesc]
  | x :: xs => by
    simp only [insertDesc]
    split
    · simp only [List.mem_cons]
    · simp only [List.mem_cons, mem_insertDesc]
      tauto

/-- An insertion step permutes `d :: l`. -/
theorem insertDesc_perm (d : String) : ∀ (l : List String), (insertDesc d l).Perm (d :: l)
  | [] => List.Perm.refl _
  | x :: xs => by
    simp only [insertDesc]
    split
    · exact List.Perm.refl _
    · exact ((insertDesc_perm d xs).cons x).trans (List.Perm.swap d x xs)

/-- `sortDesc` permutes its input. -/
theorem sortDesc_perm : ∀ (l : List String), (sortDesc l).Perm l
  | [] => List.Perm.refl _
  | d :: ds => (insertDesc_perm d (sortDesc ds)).trans ((sortDesc_perm ds).cons d)

/-- Inserting into a descending list keeps it descending. -/
theorem pairwise_insertDesc {d : String} :
    ∀ {l : List String}, l.Pairwise (fun a b => strLtB a b = false) →
      (insertDesc d l).Pairwise (fun a b => strLtB a b = false)
  | [], _ => by simp [insertDesc]
  | x :: xs, h => by
    obtain ⟨hx, hxs⟩ := List.pairwise_cons.mp h
    simp only [insertDesc]
    split
    · rename_i hxd
      refine List.pairwise_cons.mpr ⟨?_, h⟩
      intro y hy
      rw [strLtB_eq_false_iff]
      rcases List.mem_cons.mp hy with rfl | hy
      · exact asymm (strLtB_iff.mp hxd)
      · intro hdy
        have hxy : ¬ x.toList < y.toList := strLtB_eq_false_iff.mp (hx y hy)
        exact hxy (lt_trans (strLtB_iff.mp hxd) hdy)
    · rename_i hxd
      refine List.pairwise_cons.mpr ⟨?_, pairwise_insertDesc hxs⟩
      intro y hy
      rcases mem_insertDesc.mp hy with rfl | hy
      · exact Bool.not_eq_true _ ▸ hxd
      · exact hx y hy

/-- `sortDesc` sorts descending (weakly: no element is Go-less than a later
one). -/
theorem sortDesc_pairwise : ∀ (l : List String),
    (sortDesc l).Pairwise (fun a b => strLtB a b = false)
  | [] => List.Pairwise.nil
  | _ :: ds => pairwise_insertDesc (sortDesc_pairwise ds)

/-! ## Helper lemmas: association-list lookup -/

/-- A successful lookup returns a pair of the list. -/
theorem lookup_mem {β : Type} : ∀ {l : List (String × β)} {k : String} {b : β},
    l.lookup k = some b → (k, b) ∈ l
  | [], _, _, h => by simp [List.lookup] at h
  | (k', b') :: l, k, b, h => by
    rw [List.lookup_cons] at h
    by_cases hk : k == k'
    · simp only [hk] at h
      obtain rfl := of_decide_eq_true hk
      obtain rfl := Option.some.inj h
      exact List.mem_cons_self _ _
    · rw [Bool.not_eq_true] at hk
      simp only [hk] at h
      exact List.mem_cons_of_mem _ (lookup_mem h)

/-- A key of the list looks up to something. -/
theorem lookup_isSome_of_mem {β : Type} : ∀ {l : List (String × β)} {k : String},
    k ∈ l.map Prod.fst → ∃ b, l.lookup k = some b
  | [], _, h => by simp at h
  | (k', b') :: l, k, h => by
    rw [List.lookup_cons]
    by_cases hk : k == k'
    · simp only [hk]
      exact ⟨b', rfl⟩
    · rw [Bool.not_eq_true] at hk
      simp only [hk]
      have h' : k = k' ∨ k ∈ l.map Prod.fst := by
        rw [List.map_cons, List.mem_cons] at h
        exact h
      rcases h' with rfl | hmem
      · exact absurd (beq_self_eq_true k) (by rw [hk]; simp)
      · exact lookup_isSome_of_mem hmem

/-! ## Helper lemmas: truncation and the processing loop -/

/-- A non-panicking truncation is a `take`. -/
theorem truncateDates_ok {n : Int} {dates r : List String}
    (h : truncateDates n dates = .ok r) : r = dates.take n.toNat := by
  unfold truncateDates at h
  split at h
  · split at h
    · cases h
    · exact (GoResult.ok.inj h).symm
  · obtain rfl := GoResult.ok.inj h
    rename_i hlen
    rw [List.take_of_length_le]
    omega

/-- Negative `NDays` always panics the truncation (Go slice bounds). -/
theorem truncateDates_neg {n : Int} {dates : List String} (hn : n < 0) :
    truncateDates n dates = .panicked "slice bounds out of range" := by
  unfold truncateDates
  rw [if_pos (by omega), if_pos hn]

/-- `NDays = 0` truncates to the empty list. -/
theorem truncateDates_zero (dates : List String) : truncateDates 0 dates = .ok [] := by
  unfold truncateDates
  split
  · rw [if_neg (by omega)]
    simp
  · rename_i hlen
    have : dates = [] := List.length_eq_zero.mp (by omega)
    rw [this]

/-- A successful loop run extends the accumulator with one price per
retained date, in order. -/
theorem processLoop_ok_dates {ts : List (String × DailyPrice)} :
    ∀ {ds : List String} {acc : List StockPrice} {t : ℚ} {ps : List StockPrice} {tot : ℚ},
      processLoop ts ds acc t = .ok (ps, tot) →
      ps.map (fun p => p.Date) = acc.map (fun p => p.Date) ++ ds
  | [], acc, t, ps, tot, h => by
    obtain ⟨rfl, rfl⟩ : acc = ps ∧ t = tot := by
      simpa [processLoop, Prod.ext_iff] using h
    simp
  | d :: ds, acc, t, ps, tot, h => by
    rw [processLoop] at h
    split at h
    · cases h
    · have := processLoop_ok_dates h
      simpa using this

/-- A date whose close price does not parse makes the loop fail. -/
theorem processLoop_err_of_bad {ts : List (String × DailyPrice)} {d : String}
    (hbad : parseDecimal ((ts.lookup d).getD zeroDailyPrice).Close = none) :
    ∀ {ds : List String} {acc : List StockPrice} {t : ℚ}, d ∈ ds →
      ∃ m, processLoop ts ds acc t = .err m
  | [], _, _, hd => by simp at hd
  | d' :: ds, acc, t, hd => by
    rw [processLoop]
    rcases List.mem_cons.mp hd with rfl | hd
    · rw [hbad]
      exact ⟨_, rfl⟩
    · split
      · exact ⟨_, rfl⟩
      · exact processLoop_err_of_bad hbad hd

/-- If every retained close price parses, the loop succeeds. -/
theorem processLoop_ok_of_all_good {ts : List (String × DailyPrice)} :
    ∀ {ds : List String} (acc : List StockPrice) (t : ℚ),
      (∀ d ∈ ds, parseDecimal ((ts.lookup d).getD zeroDailyPrice).Close ≠ none) →
      ∃ ps tot, processLoop ts ds acc t = .ok (ps, tot)
  | [], acc, t, _ => ⟨acc, t, rfl⟩
  | d :: ds, acc, t, hgood => by
    rw [processLoop]
    split
    · exact absurd (by assumption) (hgood d (List.mem_cons_self _ _))
    · exact processLoop_ok_of_all_good _ _ (fun x hx => hgood x (List.mem_cons_of_mem _ hx))

/-! ## Helper lemmas: `GetStockData` case analysis -/

/-- Reading the key just written. -/
theorem cacheGet_set_self {α : Type} (c : CacheMap α) (k : String) (v : α) (ttl t0 t : Int) :
    cacheGet (cacheSet c k v ttl t0) t k =
      if t > t0 + ttl then (none, false) else (some v, true) := by
  unfold cacheGet cacheSet
  rw [if_pos rfl]

/-- The empty cache misses every key. -/
theorem cacheGet_new {α : Type} (now : Int) (k : String) :
    cacheGet (cacheNew α) now k = (none, false) := rfl

/-- A hit on a stored `StockData` short-circuits the call. -/
theorem getStockData_hit {cfg : Config} {fetch : Except String AlphaVantageResponse}
    {c : CacheMap Dyn} {now : Int} {d : StockData}
    (hg : cacheGet c now cfg.Symbol = (some (Dyn.stock d), true)) :
    getStockData cfg fetch c now = ⟨.ok d, c, 0⟩ := by
  simp only [getStockData, hg]

/-- On a miss, a fetch error is returned as-is and the cache is untouched. -/
theorem getStockData_miss_fetch_err {cfg : Config} {c : CacheMap Dyn} {now : Int} {e : String}
    (hm : (cacheGet c now cfg.Symbol).2 = false) :
    getStockData cfg (.error e) c now = ⟨.err e, c, 1⟩ := by
  rcases hcg : cacheGet c now cfg.Symbol with ⟨v, b⟩
  rw [hcg] at hm
  have hb : b = false := hm
  subst hb
  simp only [getStockData, hcg]

/-- On a miss with a successful fetch, the call is the transform's outcome,
caching only on success. -/
theorem getStockData_miss_fetch_ok {cfg : Config} {c : CacheMap Dyn} {now : Int}
    {resp : AlphaVantageResponse} (hm : (cacheGet c now cfg.Symbol).2 = false) :
    getStockData cfg (.ok resp) c now =
      match processAPIResponse cfg resp with
      | .err m => ⟨.err m, c, 1⟩
      | .panicked m => ⟨.panicked m, c, 1⟩
      | .ok sd => ⟨.ok sd, cacheSet c cfg.Symbol (Dyn.stock sd) cacheDuration now, 1⟩ := by
  rcases hcg : cacheGet c now cfg.Symbol with ⟨v, b⟩
  rw [hcg] at hm
  have hb : b = false := hm
  subst hb
  simp only [getStockData, hcg]

/-- Strings with equal character lists are equal. -/
theorem stringExt : ∀ {s t : String}, s.toList = t.toList → s = t
  | ⟨_⟩, ⟨_⟩, h => congrArg String.mk h

/-- A found `Get` exposes a live stored entry. -/
theorem cacheGet_found_elim {α : Type} {c : CacheMap α} {now : Int} {k : String} {v : Option α}
    (h : cacheGet c now k = (v, true)) :
    ∃ item, c k = some item ∧ v = some item.value ∧ ¬ now > item.expiration := by
  rcases hc : c k with _ | item
  · simp only [cacheGet, hc] at h
    exact absurd (Prod.mk.inj h).2 (by simp)
  · simp only [cacheGet, hc] at h
    by_cases hexp : now > item.expiration
    · rw [if_pos hexp] at h
      exact absurd (Prod.mk.inj h).2 (by simp)
    · rw [if_neg hexp] at h
      exact ⟨item, rfl, ((Prod.mk.inj h).1).symm, hexp⟩

/-- Whatever a hit stores, the call never fetches and never writes: it either
returns the stored `StockData` or panics on the type assertion. -/
theorem getStockData_found {cfg : Config} {fetch : Except String AlphaVantageResponse}
    {c : CacheMap Dyn} {now : Int} {v : Option Dyn}
    (hg : cacheGet c now cfg.Symbol = (v, true)) :
    getStockData cfg fetch c now =
      match v with
      | some (Dyn.stock d) => ⟨.ok d, c, 0⟩
      | _ => ⟨.panicked "interface conversion", c, 0⟩ := by
  rcases v with _ | dy
  · simp only [getStockData, hg]
  · cases dy
    · simp only [getStockData, hg]
    · simp only [getStockData, hg]

/-- Every `GetStockData` call either leaves the cache untouched, or succeeds
on a fetched payload and writes exactly the transform's result under the
symbol key. -/
theorem getStockData_cache_cases (cfg : Config) (fetch : Except String AlphaVantageResponse)
    (c : CacheMap Dyn) (now : Int) :
    (getStockData cfg fetch c now).cache = c ∨
      ∃ resp sd, fetch = .ok resp ∧ processAPIResponse cfg resp = .ok sd ∧
        getStockData cfg fetch c now =
          ⟨.ok sd, cacheSet c cfg.Symbol (Dyn.stock sd) cacheDuration now, 1⟩ := by
  rcases hcg : cacheGet c now cfg.Symbol with ⟨v, b⟩
  cases b
  · have hm : (cacheGet c now cfg.Symbol).2 = false := by rw [hcg]
    cases fetch with
    | error e =>
      rw [getStockData_miss_fetch_err hm]
      exact Or.inl rfl
    | ok resp =>
      rcases hp : processAPIResponse cfg resp with sd | m | m
      · refine Or.inr ⟨resp, sd, rfl, hp, ?_⟩
        rw [getStockData_miss_fetch_ok hm, hp]
      · rw [getStockData_miss_fetch_ok hm, hp]
        exact Or.inl rfl
      · rw [getStockData_miss_fetch_ok hm, hp]
        exact Or.inl rfl
  · rw [getStockData_found hcg]
    rcases v with _ | dy
    · exact Or.inl rfl
    · cases dy
      · exact Or.inl rfl
      · exact Or.inl rfl

/-! ## Claim theorems -/

/-- C5: given the raw series `{2023-01-01 ↦ 140.20, 2023-01-02 ↦ 145.50,
2023-01-03 ↦ 150.10}` and `requestedDays = 2`, the transform returns exactly
the two newest dates, newest first, and `average = 147.8`, the unweighted
mean of the two retained close prices. -/
theorem truncation_determinism :
    processAPIResponse (cfgAAPL 2) resp3 =
      .ok ⟨"AAPL", [⟨"2023-01-03", (150.10 : ℚ)⟩, ⟨"2023-01-02", (145.50 : ℚ)⟩],
        (147.8 : ℚ)⟩ := by
  have pp1 : parseParts "150.10" = some (false, 150, 10, 2) := by decide
  have pp2 : parseParts "145.50" = some (false, 145, 50, 2) := by decide
  have pd1 : parseDecimal "150.10" = some (150.10 : ℚ) := by
    simp only [parseDecimal, pp1]
    norm_num
  have pd2 : parseDecimal "145.50" = some (145.50 : ℚ) := by
    simp only [parseDecimal, pp2]
    norm_num
  have hl1 : resp3.TimeSeries.lookup "2023-01-03" = some (dp0 "150.10") := by decide
  have hl2 : resp3.TimeSeries.lookup "2023-01-02" = some (dp0 "145.50") := by decide
  have htr : truncateDates (2 : Int) (sortDesc (resp3.TimeSeries.map Prod.fst)) =
      .ok ["2023-01-03", "2023-01-02"] := by decide
  simp only [processAPIResponse, cfgAAPL, htr, processLoop, hl1, hl2, Option.getD_some, dp0,
    pd1, pd2]
  norm_num

/-- C1 (counterexample): `Set(key, value, 0)` followed by `Get(key)` at the
very same instant returns `(value, true)` — not `(_, false)` as claimed —
because `Get` treats an entry as expired only when `now` is strictly greater
than `expiresAt`, and `expiresAt = t0 + 0 = t0`. -/
theorem cache_zero_ttl_visible_at_set_instant :
    cacheGet (cacheSet (cacheNew ℕ) "price" 7 0 100) 100 "price" = (some 7, true) := by
  decide

/-- C1 (amended): after `Set(key, value, ttl)` at `t0`, a `Get(key)` at `t`
returns `(value, true)` iff `t ≤ expiresAt = t0 + ttl` (not-strictly-after,
rather than the claimed strictly-before); an entry that exists but satisfies
`t > expiresAt` behaves as absent, returning `(absent, false)`, as does a
missing key; and `ttl ≤ 0` yields an entry that is invisible at every instant
strictly after `t0` (for `ttl = 0` a `Get` at exactly `t0` still sees it). -/
theorem cache_visibility_amended {α : Type} (c : CacheMap α) (k : String) (v : α)
    (ttl t0 t : Int) :
    (cacheGet (cacheSet c k v ttl t0) t k = (some v, true) ↔ t ≤ t0 + ttl)
    ∧ (∀ key item, c key = some item → t > item.expiration →
        cacheGet c t key = (none, false))
    ∧ (∀ key, c key = none → cacheGet c t key = (none, false))
    ∧ (ttl ≤ 0 → ∀ t1, t0 < t1 → cacheGet (cacheSet c k v ttl t0) t1 k = (none, false)) := by
  refine ⟨?_, ?_, ?_, ?_⟩
  · rw [cacheGet_set_self]
    split
    · rename_i hgt
      constructor
      · intro h
        cases h
      · omega
    · rename_i hgt
      constructor
      · intro _
        omega
      · intro _
        rfl
  · intro key item hsome hexp
    simp only [cacheGet, hsome]
    rw [if_pos hexp]
  · intro key hnone
    simp only [cacheGet, hnone]
  · intro httl t1 ht1
    rw [cacheGet_set_self, if_pos (by omega)]

/-- C1 (amended, witness): a concrete negative-TTL entry is invisible one
nanosecond after it is set. -/
theorem cache_visibility_amended_witness :
    cacheGet (cacheSet (cacheNew ℕ) "price" 7 (-5) 100) 101 "price" = (none, false) :=
  (cache_visibility_amended (cacheNew ℕ) "price" 7 (-5) 100 0).2.2.2 (by omega) 101 (by omega)

/-- C2: starting from the empty cache, a successful `GetStockData` invokes
the fetcher exactly once (`fetchCount = 1`) and stores the transform's result
under the symbol key; an immediately following call at any instant strictly
before the fixed 15-minute TTL elapses invokes the fetcher zero times and
returns the cached `StockData`, short-circuiting the whole
fetch/transform path (the second call's outcome is independent of its
`fetch2` argument). -/
theorem miss_then_fill (cfg : Config) (resp : AlphaVantageResponse) (sd : StockData)
    (t0 t1 : Int) (fetch2 : Except String AlphaVantageResponse)
    (hp : processAPIResponse cfg resp = .ok sd) (ht : t1 < t0 + cacheDuration) :
    getStockData cfg (.ok resp) (cacheNew Dyn) t0 =
      ⟨.ok sd, cacheSet (cacheNew Dyn) cfg.Symbol (Dyn.stock sd) cacheDuration t0, 1⟩
    ∧ getStockData cfg fetch2
        (cacheSet (cacheNew Dyn) cfg.Symbol (Dyn.stock sd) cacheDuration t0) t1 =
      ⟨.ok sd, cacheSet (cacheNew Dyn) cfg.Symbol (Dyn.stock sd) cacheDuration t0, 0⟩ := by
  constructor
  · rw [getStockData_miss_fetch_ok (by rw [cacheGet_new]), hp]
  · have hhit : cacheGet (cacheSet (cacheNew Dyn) cfg.Symbol (Dyn.stock sd) cacheDuration t0)
        t1 cfg.Symbol = (some (Dyn.stock sd), true) := by
      rw [cacheGet_set_self, if_neg (by omega)]
    exact getStockData_hit hhit

/-- C2 (witness): the first test payload, with all three days retained. -/
theorem miss_then_fill_witness :
    getStockData (cfgAAPL 7) (.ok resp3) (cacheNew Dyn) 0 =
      ⟨.ok sd3, cacheSet (cacheNew Dyn) "AAPL" (Dyn.stock sd3) cacheDuration 0, 1⟩
    ∧ getStockData (cfgAAPL 7) (.error "upstream down")
        (cacheSet (cacheNew Dyn) "AAPL" (Dyn.stock sd3) cacheDuration 0) 5 =
      ⟨.ok sd3, cacheSet (cacheNew Dyn) "AAPL" (Dyn.stock sd3) cacheDuration 0, 0⟩ :=
  miss_then_fill (cfgAAPL 7) resp3 sd3 0 5 (.error "upstream down")
    (by
      have pd1 : parseDecimal "150.10" = some (1501/10 : ℚ) := by
        have pp : parseParts "150.10" = some (false, 150, 10, 2) := by decide
        simp only [parseDecimal, pp]
        norm_num
      have pd2 : parseDecimal "145.50" = some (291/2 : ℚ) := by
        have pp : parseParts "145.50" = some (false, 145, 50, 2) := by decide
        simp only [parseDecimal, pp]
        norm_num
      have pd3 : parseDecimal "140.20" = some (701/5 : ℚ) := by
        have pp : parseParts "140.20" = some (false, 140, 20, 2) := by decide
        simp only [parseDecimal, pp]
        norm_num
      have hl1 : resp3.TimeSeries.lookup "2023-01-03" = some (dp0 "150.10") := by decide
      have hl2 : resp3.TimeSeries.lookup "2023-01-02" = some (dp0 "145.50") := by decide
      have hl3 : resp3.TimeSeries.lookup "2023-01-01" = some (dp0 "140.20") := by decide
      have htr : truncateDates (7 : Int) (sortDesc (resp3.TimeSeries.map Prod.fst)) =
          .ok ["2023-01-03", "2023-01-02", "2023-01-01"] := by decide
      simp only [processAPIResponse, cfgAAPL, htr, processLoop, hl1, hl2, hl3,
        Option.getD_some, dp0, pd1, pd2, pd3, sd3]
      norm_num)
    (by decide)

/-- C6 (counterexample): with `requestedDays = -1`, a nonempty payload and a
cache miss, `GetStockData` reaches the Go slice expression `dates[:NDays]`
with a negative bound and panics, instead of failing with the "no price data"
error as the claim requires. -/
theorem negative_days_panic :
    (getStockData (cfgAAPL (-1)) (.ok resp2) (cacheNew Dyn) 0).result =
      .panicked "slice bounds out of range" := by
  decide

/-- C6 (amended): on a cache miss with a successfully fetched payload,
`requestedDays = 0` makes the truncation retain zero dates and the call fails
with the "no price data" error — no panic, no `StockData`, cache untouched;
but `requestedDays < 0` makes the call panic on the slice expression
`dates[:NDays]` (for every payload, since `len(dates) ≥ 0 > NDays` always
triggers the truncation branch), again caching nothing. -/
theorem nonpositive_days_amended (cfg : Config) (resp : AlphaVantageResponse)
    (c : CacheMap Dyn) (now : Int) (hm : (cacheGet c now cfg.Symbol).2 = false) :
    (cfg.NDays = 0 → getStockData cfg (.ok resp) c now =
      ⟨.err ("no price data available for symbol " ++ cfg.Symbol), c, 1⟩)
    ∧ (cfg.NDays < 0 → getStockData cfg (.ok resp) c now =
      ⟨.panicked "slice bounds out of range", c, 1⟩) := by
  constructor
  · intro hz
    have hp : processAPIResponse cfg resp =
        .err ("no price data available for symbol " ++ cfg.Symbol) := by
      simp [processAPIResponse, hz, truncateDates_zero, processLoop]
    rw [getStockData_miss_fetch_ok hm, hp]
  · intro hneg
    have hp : processAPIResponse cfg resp = .panicked "slice bounds out of range" := by
      simp [processAPIResponse, truncateDates_neg hneg]
    rw [getStockData_miss_fetch_ok hm, hp]

/-- C6 (amended, witness): the zero-day case on a concrete payload. -/
theorem nonpositive_days_amended_witness :
    getStockData (cfgAAPL 0) (.ok resp2) (cacheNew Dyn) 0 =
      ⟨.err ("no price data available for symbol " ++ "AAPL"), cacheNew Dyn, 1⟩ :=
  (nonpositive_days_amended (cfgAAPL 0) resp2 (cacheNew Dyn) 0 rfl).1 rfl

/-- C4: failing `GetStockData` calls are atomic with respect to the cache:
any call whose result is an error or a panic leaves the cache exactly as it
was; on a miss, a fetcher error is propagated to the caller unchanged with
nothing written; on a miss whose fetched payload has any retained date with
an unparseable close price, the whole call fails with an error and nothing is
cached; and on a miss whose payload has zero dates (with a non-negative day
count) the call fails with the "no price data" error, again caching
nothing. -/
theorem failure_atomicity (cfg : Config) (fetch : Except String AlphaVantageResponse)
    (c : CacheMap Dyn) (now : Int) :
    (∀ m, (getStockData cfg fetch c now).result = .err m →
        (getStockData cfg fetch c now).cache = c)
    ∧ (∀ m, (getStockData cfg fetch c now).result = .panicked m →
        (getStockData cfg fetch c now).cache = c)
    ∧ ((cacheGet c now cfg.Symbol).2 = false → ∀ e, fetch = .error e →
        getStockData cfg fetch c now = ⟨.err e, c, 1⟩)
    ∧ ((cacheGet c now cfg.Symbol).2 = false → ∀ resp rs d, fetch = .ok resp →
        truncateDates cfg.NDays (sortDesc (resp.TimeSeries.map Prod.fst)) = .ok rs →
        d ∈ rs →
        parseDecimal ((resp.TimeSeries.lookup d).getD zeroDailyPrice).Close = none →
        ∃ m, getStockData cfg fetch c now = ⟨.err m, c, 1⟩)
    ∧ ((cacheGet c now cfg.Symbol).2 = false → ∀ resp, fetch = .ok resp →
        resp.TimeSeries = [] → 0 ≤ cfg.NDays →
        getStockData cfg fetch c now =
          ⟨.err ("no price data available for symbol " ++ cfg.Symbol), c, 1⟩) := by
  refine ⟨?_, ?_, ?_, ?_, ?_⟩
  · intro m hres
    rcases getStockData_cache_cases cfg fetch c now with hcc | ⟨resp, sd, hf, hp, heq⟩
    · exact hcc
    · rw [heq] at hres
      simp at hres
  · intro m hres
    rcases getStockData_cache_cases cfg fetch c now with hcc | ⟨resp, sd, hf, hp, heq⟩
    · exact hcc
    · rw [heq] at hres
      simp at hres
  · intro hm e hf
    subst hf
    exact getStockData_miss_fetch_err hm
  · intro hm resp rs d hf htr hd hbad
    subst hf
    obtain ⟨m, hloop⟩ := @processLoop_err_of_bad resp.TimeSeries d hbad rs [] 0 hd
    have hp : processAPIResponse cfg resp = .err m := by
      simp only [processAPIResponse, htr, hloop]
    exact ⟨m, by rw [getStockData_miss_fetch_ok hm, hp]⟩
  · intro hm resp hf hempty hnn
    subst hf
    have htr0 : truncateDates cfg.NDays (sortDesc (resp.TimeSeries.map Prod.fst)) = .ok [] := by
      rw [hempty]
      show truncateDates cfg.NDays (sortDesc []) = .ok []
      rw [sortDesc]
      unfold truncateDates
      rw [if_neg (by simp only [List.length_nil]; omega)]
    have hp : processAPIResponse cfg resp =
        .err ("no price data available for symbol " ++ cfg.Symbol) := by
      simp [processAPIResponse, htr0, processLoop]
    rw [getStockData_miss_fetch_ok hm, hp]

/-- C4 (witness): the malformed-price payload fails and caches nothing. -/
theorem failure_atomicity_witness :
    ∃ m, getStockData (cfgAAPL 3) (.ok respBad) (cacheNew Dyn) 0 =
      ⟨.err m, cacheNew Dyn, 1⟩ :=
  (failure_atomicity (cfgAAPL 3) (.ok respBad) (cacheNew Dyn) 0).2.2.2.1 rfl respBad
    ["2023-01-03", "2023-01-02"] "2023-01-03" rfl (by decide) (by decide) (by decide)

/-- C3: whenever the transform succeeds, the returned prices are sorted by
date in strictly descending lexicographic order, the number of prices equals
`min(requested days, available days)`, and the price list is nonempty
(construction fails rather than returning an empty result); moreover, when at
most the requested number of dates is available, all close prices parse and
the payload is nonempty, the transform does succeed — fewer dates than
requested is never by itself an error. -/
theorem transform_sorted_truncated (cfg : Config) (resp : AlphaVantageResponse)
    (hnd : (resp.TimeSeries.map Prod.fst).Nodup) :
    (∀ sd, processAPIResponse cfg resp = .ok sd →
      sd.Prices.Pairwise (fun p q => strLtB q.Date p.Date = true)
      ∧ sd.Prices.length = min cfg.NDays.toNat resp.TimeSeries.length
      ∧ sd.Prices ≠ [])
    ∧ ((resp.TimeSeries.length : Int) ≤ cfg.NDays → resp.TimeSeries ≠ [] →
        (∀ pr ∈ resp.TimeSeries, parseDecimal pr.2.Close ≠ none) →
        ∃ sd, processAPIResponse cfg resp = .ok sd) := by
  constructor
  · intro sd h
    rcases htr : truncateDates cfg.NDays (sortDesc (resp.TimeSeries.map Prod.fst))
      with rs | m | m
    · rcases hloop : processLoop resp.TimeSeries rs [] 0 with ⟨ps, tot⟩ | m | m
      · simp only [processAPIResponse, htr, hloop] at h
        by_cases hz : ps.length = 0
        · rw [if_pos hz] at h
          simp at h
        · rw [if_neg hz] at h
          obtain rfl := (GoResult.ok.inj h).symm
          have hrs : rs = (sortDesc (resp.TimeSeries.map Prod.fst)).take cfg.NDays.toNat :=
            truncateDates_ok htr
          have hmap : ps.map (fun p => p.Date) = rs := by
            have := processLoop_ok_dates hloop
            simpa using this
          have hsorted_weak : rs.Pairwise (fun a b => strLtB a b = false) := by
            rw [hrs]
            exact List.Pairwise.sublist (List.take_sublist _ _) (sortDesc_pairwise _)
          have hnodup : rs.Nodup := by
            rw [hrs]
            exact List.Nodup.sublist (List.take_sublist _ _)
              ((sortDesc_perm _).nodup_iff.mpr hnd)
          have hstrict : rs.Pairwise (fun a b => strLtB b a = true) := by
            refine (hsorted_weak.and hnodup).imp ?_
            intro a b hab
            obtain ⟨hw, hne⟩ := hab
            rw [strLtB_iff]
            rcases (not_lt.mp (strLtB_eq_false_iff.mp hw)).lt_or_eq with hlt | heq
            · exact hlt
            · exact absurd (stringExt heq).symm hne
          refine ⟨?_, ?_, ?_⟩
          · rw [← hmap] at hstrict
            exact List.pairwise_map.mp hstrict
          · have h1 : ps.length = rs.length := by
              rw [← List.length_map ps (fun p => p.Date), hmap]
            rw [h1, hrs, List.length_take, (sortDesc_perm _).length_eq, List.length_map]
          · intro he
            exact hz (congrArg List.length he)
      · simp only [processAPIResponse, htr, hloop] at h
        simp at h
      · simp only [processAPIResponse, htr, hloop] at h
        simp at h
    · simp only [processAPIResponse, htr] at h
      simp at h
    · simp only [processAPIResponse, htr] at h
      simp at h
  · intro hle hne hgood
    have hlen_sorted : (sortDesc (resp.TimeSeries.map Prod.fst)).length =
        resp.TimeSeries.length := by
      rw [(sortDesc_perm _).length_eq, List.length_map]
    have htr : truncateDates cfg.NDays (sortDesc (resp.TimeSeries.map Prod.fst)) =
        .ok (sortDesc (resp.TimeSeries.map Prod.fst)) := by
      unfold truncateDates
      rw [if_neg (by rw [hlen_sorted]; omega)]
    have hall : ∀ d ∈ sortDesc (resp.TimeSeries.map Prod.fst),
        parseDecimal ((resp.TimeSeries.lookup d).getD zeroDailyPrice).Close ≠ none := by
      intro d hd
      have hdm : d ∈ resp.TimeSeries.map Prod.fst := (sortDesc_perm _).mem_iff.mp hd
      obtain ⟨p, hp⟩ := lookup_isSome_of_mem hdm
      rw [hp, Option.getD_some]
      exact hgood (d, p) (lookup_mem hp)
    obtain ⟨ps, tot, hloop⟩ := processLoop_ok_of_all_good [] 0 hall
    have hpslen : ps.length = resp.TimeSeries.length := by
      have hmap : ps.map (fun p => p.Date) = sortDesc (resp.TimeSeries.map Prod.fst) := by
        have := processLoop_ok_dates hloop
        simpa using this
      rw [← List.length_map ps (fun p => p.Date), hmap, hlen_sorted]
    have hne0 : ¬ ps.length = 0 := by
      rw [hpslen]
      intro h0
      exact hne (List.length_eq_zero.mp h0)
    refine ⟨⟨cfg.Symbol, ps, tot / (ps.length : ℚ)⟩, ?_⟩
    simp only [processAPIResponse, htr, hloop]
    rw [if_neg hne0]

/-- C3 (witness): two available dates, five requested — the transform
succeeds. -/
theorem transform_sorted_truncated_witness :
    ∃ sd, processAPIResponse (cfgAAPL 5) resp2 = .ok sd :=
  (transform_sorted_truncated (cfgAAPL 5) resp2 (by decide)).2 (by decide) (by decide)
    (by decide)

/-- C9: in every cache state reachable by `GetStockData` calls alone (the
only writer in this system), every stored value under any key is a
`Dyn.stock` holding a `StockData` produced by some successful transform;
consequently the type assertion on a cache hit can never fail — a hit always
returns such a previously computed result, with zero fetches and the cache
unchanged. -/
theorem cache_values_well_formed {c : CacheMap Dyn} (hr : ReachableCache c) :
    (∀ k item, c k = some item →
      ∃ d, item.value = Dyn.stock d ∧ ∃ cfg resp, processAPIResponse cfg resp = .ok d)
    ∧ (∀ cfg fetch now, (cacheGet c now cfg.Symbol).2 = true →
        ∃ d, getStockData cfg fetch c now = ⟨.ok d, c, 0⟩
          ∧ ∃ cfg0 resp0, processAPIResponse cfg0 resp0 = .ok d) := by
  have inv : ∀ {c0 : CacheMap Dyn}, ReachableCache c0 → ∀ k item, c0 k = some item →
      ∃ d, item.value = Dyn.stock d ∧ ∃ cfg resp, processAPIResponse cfg resp = .ok d := by
    intro c0 hr0
    induction hr0 with
    | init =>
      intro k item hk
      exact absurd hk (by simp [cacheNew])
    | step c1 cfg fetch now hprev ih =>
      intro k item hk
      rcases getStockData_cache_cases cfg fetch c1 now with hcc | ⟨resp, sd, hf, hp, heq⟩
      · rw [hcc] at hk
        exact ih k item hk
      · have hcc : (getStockData cfg fetch c1 now).cache =
            cacheSet c1 cfg.Symbol (Dyn.stock sd) cacheDuration now := by rw [heq]
        rw [hcc] at hk
        unfold cacheSet at hk
        by_cases hkk : k = cfg.Symbol
        · rw [if_pos hkk] at hk
          obtain rfl := Option.some.inj hk
          exact ⟨sd, rfl, cfg, resp, hp⟩
        · rw [if_neg hkk] at hk
          exact ih k item hk
  refine ⟨inv hr, ?_⟩
  intro cfg fetch now hb
  rcases hcg : cacheGet c now cfg.Symbol with ⟨v, b⟩
  rw [hcg] at hb
  have hb' : b = true := hb
  subst hb'
  obtain ⟨item, hsome, hv, hexp⟩ := cacheGet_found_elim hcg
  obtain ⟨d, hd, cfg0, resp0, hp0⟩ := inv hr cfg.Symbol item hsome
  have hcg2 : cacheGet c now cfg.Symbol = (some (Dyn.stock d), true) := by
    rw [hcg, hv, hd]
  exact ⟨d, getStockData_hit hcg2, cfg0, resp0, hp0⟩

/-- C9 (witness): after one successful fill, a later hit returns the stored
transform result without fetching. -/
theorem cache_values_well_formed_witness :
    ∃ d, getStockData (cfgAAPL 7) (.error "upstream down")
        (getStockData (cfgAAPL 7) (.ok resp3) (cacheNew Dyn) 0).cache 5 =
      ⟨.ok d, (getStockData (cfgAAPL 7) (.ok resp3) (cacheNew Dyn) 0).cache, 0⟩
      ∧ ∃ cfg0 resp0, processAPIResponse cfg0 resp0 = .ok d :=
  (cache_values_well_formed
      (ReachableCache.step (cacheNew Dyn) (cfgAAPL 7) (.ok resp3) 0 ReachableCache.init)).2
    (cfgAAPL 7) (.error "upstream down") 5 (by decide)

/-- C7: for every key, value and `ttl > 0`, `Get(key)` immediately after
`Set(key, value, ttl)` — at the same instant `t0`, with no advance of time —
returns `(value, true)`. -/
theorem cache_set_get_fresh {α : Type} (c : CacheMap α) (k : String) (v : α) (ttl t0 : Int)
    (h : 0 < ttl) : cacheGet (cacheSet c k v ttl t0) t0 k = (some v, true) := by
  rw [cacheGet_set_self, if_neg (by omega)]

/-- C7 (witness). -/
theorem cache_set_get_fresh_witness :
    cacheGet (cacheSet (cacheNew ℕ) "k" 3 5 0) 0 "k" = (some 3, true) :=
  cache_set_get_fresh (cacheNew ℕ) "k" 3 5 0 (by omega)

/-- C8: `Set(k, v1, ttl)` then `Set(k, v2, ttl)` overwrites the whole entry
for `k` with `v2` and expiry `t1 + ttl` — no merging with the first write —
and a `Get(k)` before the ttl elapses returns `(v2, true)`. -/
theorem cache_overwrite_last_write_wins {α : Type} (c : CacheMap α) (k : String) (v1 v2 : α)
    (ttl t0 t1 t2 : Int) (_httl : 0 < ttl) (ht : t2 < t1 + ttl) :
    cacheSet (cacheSet c k v1 ttl t0) k v2 ttl t1 =
      (fun key => if key = k then some ⟨v2, t1 + ttl⟩ else c key)
    ∧ cacheGet (cacheSet (cacheSet c k v1 ttl t0) k v2 ttl t1) t2 k = (some v2, true) := by
  constructor
  · funext key
    unfold cacheSet
    by_cases hk : key = k
    · rw [if_pos hk, if_pos hk]
    · rw [if_neg hk, if_neg hk, if_neg hk]
  · rw [cacheGet_set_self, if_neg (by omega)]

/-- C8 (witness). -/
theorem cache_overwrite_last_write_wins_witness :
    cacheGet (cacheSet (cacheSet (cacheNew ℕ) "k" 1 10 0) "k" 2 10 3) 5 "k" = (some 2, true) :=
  (cache_overwrite_last_write_wins (cacheNew ℕ) "k" 1 2 10 0 3 5 (by omega) (by omega)).2

/-- C10: at any fixed instant, `Cleanup` does not change the cache's
observable behavior: every `Get` returns the same `(value, found)` pair after
the sweep as before it, because `Cleanup` deletes exactly the entries whose
expiration already makes `Get` report them absent. -/
theorem cleanup_preserves_get {α : Type} (c : CacheMap α) (now : Int) (key : String) :
    cacheGet (cacheCleanup c now) now key = cacheGet c now key := by
  simp only [cacheGet, cacheCleanup]
  rcases hc : c key with _ | item
  · rfl
  · by_cases hexp : now > item.expiration
    · simp [hexp]
    · simp [hexp]

end Stockticker
